import Mathlib

/-!
Verification development for the `jsonstate` package (src/jsonstate.go).

The Go data type `State` has a `Tree []*State` field where a nil slice is
distinct from an empty slice, so the tree is embedded as a mutual inductive
family: `State` is a node, `Forest` models the possibly-nil child slice
(`Forest.nil` is Go's nil, `Forest.mkt` a non-nil slice), and `StateList`
is the cons-list of children.  Machine integers (`Level`, Go `int`) are
modelled as `Int`; Go strings as `String`.
-/

namespace Jsonstate

mutual

inductive State where
  | mk (level : Int) (source : String) (message : String) (tree : Forest) (override : Bool) : State

inductive Forest where
  | nil : Forest
  | mkt (children : StateList) : Forest

inductive StateList where
  | nil : StateList
  | cons (s : State) (rest : StateList) : StateList

end

/-- Projection of the `Level` field. -/
def State.level : State → Int
  | .mk l _ _ _ _ => l

/-- Projection of the `Source` field. -/
def State.source : State → String
  | .mk _ src _ _ _ => src

/-- Projection of the `Message` field. -/
def State.message : State → String
  | .mk _ _ msg _ _ => msg

/-- Projection of the `Tree` field. -/
def State.tree : State → Forest
  | .mk _ _ _ t _ => t

/-- Projection of the `Override` field. -/
def State.override : State → Bool
  | .mk _ _ _ _ ov => ov

/-- Conversion of the embedded child list to a Lean list. -/
def StateList.toList : StateList → List State
  | .nil => []
  | .cons c rest => c :: rest.toList

/-- Children of a forest as a Lean list (`[]` both for Go nil and empty). -/
def Forest.childrenList : Forest → List State
  | .nil => []
  | .mkt cs => cs.toList

/-- Pointwise map over an embedded child list. -/
def StateList.mapS (f : State → State) : StateList → StateList
  | .nil => .nil
  | .cons c rest => .cons (f c) (rest.mapS f)

/-- Level constant `StateUnknown` of jsonstate.go. -/
def StateUnknown : Int := 0

/-- Level constant `StatePanic` of jsonstate.go. -/
def StatePanic : Int := 700

/-- Translation of `LevelString` (jsonstate.go, lines 44-79): the name of the
severity band containing `level`, by an if-else chain of upper bounds. -/
def LevelString (level : Int) : String :=
  if level < 100 then "Unknown"
  else if level < 200 then "Disabled"
  else if level < 300 then "OK"
  else if level < 400 then "Attention"
  else if level < 500 then "Warning"
  else if level < 600 then "Error"
  else if level < 700 then "Fault"
  else "Panic"

/-- Translation of the constructor `New` (jsonstate.go, line 39): a fresh node
with the given source and Go zero values for every other field. -/
def New (source : String) : State :=
  .mk 0 source "" .nil false

/-- Translation of `State.Set` (jsonstate.go, line 121): overwrite level and
message in place. -/
def State.Set (s : State) (level : Int) (message : String) : State :=
  match s with
  | .mk _ src _ t ov => .mk level src message t ov

/-- Appending one element at the end of an embedded child list. -/
def StateList.snoc : StateList → State → StateList
  | .nil, c => .cons c .nil
  | .cons a rest, c => .cons a (rest.snoc c)

/-- Appending one child to the `Tree` slice: Go `append` on a nil slice
allocates a fresh one-element slice. -/
def Forest.push (t : Forest) (c : State) : Forest :=
  match t with
  | .nil => .mkt (.cons c .nil)
  | .mkt cs => .mkt (cs.snoc c)

/-- Translation of `State.Add` (jsonstate.go, line 128): append each given
node to the child slice, in call order. -/
def State.Add (s : State) (s_list : List State) : State :=
  s_list.foldl
    (fun s c =>
      match s with
      | .mk lv src msg t ov => .mk lv src msg (t.push c) ov)
    s

mutual

/-- Translation of `State.Apply` (jsonstate.go, lines 82-119), for a non-nil
override: replace level/message and set the override flag when
`override.Source != s.Source`; then, when both child slices are non-nil,
apply every override child in order to the children of `s` it selects
(all of them for the wildcard source `"*"`, those of exactly equal source
otherwise). -/
def State.Apply (s : State) : State → State
  | .mk olv osrc omsg otree _ =>
    match s with
    | .mk lv src msg t ov =>
      .mk (if osrc ≠ src then olv else lv) src (if osrc ≠ src then omsg else msg)
        (match t, otree with
          | Forest.mkt cs, Forest.mkt ocs => Forest.mkt (applyOverrides cs ocs)
          | _, _ => t)
        (if osrc ≠ src then true else ov)

/-- Sequential application of a list of override children to the child list
of a state node (the outer loop of `State.Apply`): each override child
updates, in place, exactly the children the wildcard/exact-source filter
selects. -/
def applyOverrides (cs : StateList) : StateList → StateList
  | .nil => cs
  | .cons oc rest =>
    applyOverrides
      (cs.mapS fun c =>
        if oc.source = "*" ∨ c.source = oc.source then c.Apply oc else c)
      rest

end

/-- Translation of the nil-pointer guard of `State.Apply`: applying an absent
override document is a no-op. -/
def State.applyOpt (s : State) : Option State → State
  | none => s
  | some o => s.Apply o

/-- First child of the list whose `Source` equals `src` (the matching loop of
`State.FindBySource`). -/
def StateList.findSource (src : String) : StateList → Option State
  | .nil => none
  | .cons c rest => if c.source = src then some c else rest.findSource src

/-- Translation of `State.FindBySource` (jsonstate.go, lines 137-159): return
nil when the child slice is nil; otherwise, for a non-empty path, take the
first child matching the head of the path and either return it (path
exhausted) or recurse into it with the rest of the path; nil in every other
case. -/
def State.FindBySource (s : State) (source_path : List String) : Option State :=
  match s.tree with
  | .nil => none
  | .mkt cs =>
    match source_path with
    | [] => none
    | src :: rest =>
      match cs.findSource src with
      | none => none
      | some c => if rest.isEmpty then some c else c.FindBySource rest

mutual

/-- Translation of `State.AggregateLevels` (jsonstate.go, lines 161-181):
a node with a nil child slice is returned unchanged; otherwise every child is
aggregated in order while a running maximum, started at 0, is taken of the
aggregated child levels, and that maximum becomes the node's level. -/
def State.AggregateLevels : State → State
  | .mk lv src msg Forest.nil ov => .mk lv src msg Forest.nil ov
  | .mk _ src msg (Forest.mkt cs) ov =>
    let r := aggStep 0 cs
    .mk r.2 src msg (Forest.mkt r.1) ov

/-- Loop body of `State.AggregateLevels`: aggregate each child in order and
thread the running maximum `maxLevel` through (`if s_it.Level > maxLevel`). -/
def aggStep (maxLevel : Int) : StateList → StateList × Int
  | .nil => (.nil, maxLevel)
  | .cons c rest =>
    let c2 := c.AggregateLevels
    let r := aggStep (if c2.level > maxLevel then c2.level else maxLevel) rest
    (.cons c2 r.1, r.2)

end

/-- Translation of the `FlatState` record (jsonstate.go, lines 30-36). -/
structure FlatState where
  depth : Nat
  level : Int
  source : String
  message : String
  override : Bool
deriving DecidableEq, Repr

mutual

/-- Translation of `rflat` (jsonstate.go, lines 214-237): the entry for the
node itself — note that the Go code builds the `FlatState` literal without
an `Override` field, so it gets the zero value `false` — followed by the
entries of the children at depth + 1, when the child slice is non-nil. -/
def rflat (rs : State) (depth : Nat) : List FlatState :=
  match rs with
  | .mk lv src msg t _ =>
    { depth := depth, level := lv, source := src, message := msg, override := false }
      :: rflatForest t (depth + 1)

/-- Entries contributed by a possibly-nil child slice in `rflat`. -/
def rflatForest (t : Forest) (depth : Nat) : List FlatState :=
  match t with
  | .nil => []
  | .mkt cs => rflatList cs depth

/-- Entries contributed by the children, in order, in `rflat`. -/
def rflatList (cs : StateList) (depth : Nat) : List FlatState :=
  match cs with
  | .nil => []
  | .cons c rest => rflat c depth ++ rflatList rest depth

end

/-- Translation of `State.Flatten` (jsonstate.go, line 183). -/
def State.Flatten (s : State) : List FlatState :=
  rflat s 0

/-- Indentation written by the depth loop of `State.String`: `Depth` copies of
two spaces, appended left to right. -/
def indentStr : Nat → String
  | 0 => ""
  | n + 1 => indentStr n ++ "  "

/-- Text written for one flat entry by `State.String` (jsonstate.go, lines
191-209): indentation, then `- [source]: ` when the source is non-empty, then
the decimal level, a space and its band name, then `: message` when the
message is non-empty, then a newline. -/
def FlatState.line (item : FlatState) : String :=
  indentStr item.depth
    ++ (if item.source ≠ "" then "- [" ++ item.source ++ "]: " else "")
    ++ (toString item.level ++ " " ++ LevelString item.level)
    ++ (if item.message ≠ "" then ": " ++ item.message else "")
    ++ "\n"

/-- Translation of `State.String` (jsonstate.go, lines 187-212): a string
builder is folded over the flat entries, appending each entry's text. -/
def State.render (s : State) : String :=
  s.Flatten.foldl (fun sb item => sb ++ item.line) ""

/-! Specification-side definitions, used to state the claims. -/

mutual

/-- Shape of a node: its source and the shape of its child slice, with the
mutable fields (level, message, override flag) erased. -/
inductive Skel where
  | mk (source : String) (t : SkelForest) : Skel

/-- Shape of a possibly-nil child slice. -/
inductive SkelForest where
  | nil : SkelForest
  | mkt (cs : SkelList) : SkelForest

/-- Shape of a child list. -/
inductive SkelList where
  | nil : SkelList
  | cons (s : Skel) (rest : SkelList) : SkelList

end

mutual

/-- Shape of a state node. -/
def State.skeleton : State → Skel
  | .mk _ src _ t _ => .mk src t.skeleton

/-- Shape of a possibly-nil child slice. -/
def Forest.skeleton : Forest → SkelForest
  | .nil => .nil
  | .mkt cs => .mkt cs.skeleton

/-- Shapes of the members of a child list. -/
def StateList.skeleton : StateList → SkelList
  | .nil => .nil
  | .cons c rest => .cons c.skeleton rest.skeleton

end

mutual

/-- Total node count of a tree. -/
def State.size : State → Nat
  | .mk _ _ _ t _ => 1 + t.size

/-- Total node count below a possibly-nil child slice. -/
def Forest.size : Forest → Nat
  | .nil => 0
  | .mkt cs => cs.size

/-- Total node count of a list of trees. -/
def StateList.size : StateList → Nat
  | .nil => 0
  | .cons c rest => c.size + rest.size

end

mutual

/-- Specification-side pre-order traversal: the node itself, paired with its
depth, strictly before the entries of all its descendants, the children in
insertion order at depth + 1. -/
def specPreorder (d : Nat) : State → List (Nat × State)
  | .mk lv src msg t ov => (d, .mk lv src msg t ov) :: specPreorderForest (d + 1) t

/-- Pre-order entries below a possibly-nil child slice. -/
def specPreorderForest (d : Nat) : Forest → List (Nat × State)
  | .nil => []
  | .mkt cs => specPreorderList d cs

/-- Pre-order entries of a list of siblings, in insertion order. -/
def specPreorderList (d : Nat) : StateList → List (Nat × State)
  | .nil => []
  | .cons c rest => specPreorder d c ++ specPreorderList d rest

end

/-- Flat entry the code emits for node `n` at depth `d` (no `Override` field
is written by `rflat`, so the flag is the zero value `false`). -/
def flatEntry (d : Nat) (n : State) : FlatState :=
  { depth := d, level := n.level, source := n.source, message := n.message, override := false }

/-- Specification-side lookup: descend one level per path element, matching on
exact source equality with the first matching sibling winning, and return the
node at the end of the path; not-found when some level has no match (a nil
child slice offering no children at all). -/
def specDescend (s : State) : List String → Option State
  | [] => some s
  | x :: rest =>
    match (s.tree.childrenList).find? (fun c => c.source == x) with
    | none => none
    | some c => specDescend c rest

/-- Sequential application of every override child of the list to one state
node: the wildcard source or an exactly equal source selects the node. -/
def applyOCs (c : State) : StateList → State
  | .nil => c
  | .cons oc rest =>
    applyOCs (if oc.source = "*" ∨ c.source = oc.source then c.Apply oc else c) rest

/-- Specification-side indentation of a rendered line: depth times two space
characters. -/
def specIndent (d : Nat) : String :=
  String.mk (List.replicate (2 * d) ' ')

/-- Specification-side text of one rendered line, following the claim: the
indentation, then `- [source]: ` only when the source is non-empty, then the
decimal level followed by one space and the band name of that level, then
`: ` followed by the message only when the message is non-empty, then a
newline. -/
def specLine (e : FlatState) : String :=
  specIndent e.depth
    ++ (if e.source = "" then "" else "- [" ++ e.source ++ "]: ")
    ++ toString e.level ++ " " ++ LevelString e.level
    ++ (if e.message = "" then "" else ": " ++ e.message)
    ++ "\n"

/-- Concatenation of the given texts in order. -/
def specConcat : List String → String
  | [] => ""
  | s :: l => s ++ specConcat l

/-- Root with a single leaf child of negative level, the input on which the
aggregated level differs from the maximum of the children's levels. -/
def aggCexRoot : State :=
  .mk 5 "r" "" (.mkt (.cons (.mk (-5) "c" "" .nil false) .nil)) false

/-! Theorems. -/

/-- Unfolding of `State.Apply` on two constructor-form nodes. -/
theorem Apply_mk (lv : Int) (src msg : String) (t : Forest) (ov : Bool)
    (olv : Int) (osrc omsg : String) (otree : Forest) (oov : Bool) :
    (State.mk lv src msg t ov).Apply (State.mk olv osrc omsg otree oov)
      = State.mk (if osrc ≠ src then olv else lv) src (if osrc ≠ src then omsg else msg)
          (match t, otree with
            | Forest.mkt cs, Forest.mkt ocs => Forest.mkt (applyOverrides cs ocs)
            | _, _ => t)
          (if osrc ≠ src then true else ov) := by
  cases t <;> cases otree <;> rfl

/-- Claim C5: `LevelString` maps every integer to exactly one of the eight
band names by half-open interval membership, with `Unknown` for everything
below 100 (negatives included) and `Panic` unbounded above; the six listed
sample levels evaluate to the listed band names. -/
theorem LevelString_bands (level : Int) :
    ((LevelString level = "Unknown") ↔ level < 100) ∧
    ((LevelString level = "Disabled") ↔ 100 ≤ level ∧ level < 200) ∧
    ((LevelString level = "OK") ↔ 200 ≤ level ∧ level < 300) ∧
    ((LevelString level = "Attention") ↔ 300 ≤ level ∧ level < 400) ∧
    ((LevelString level = "Warning") ↔ 400 ≤ level ∧ level < 500) ∧
    ((LevelString level = "Error") ↔ 500 ≤ level ∧ level < 600) ∧
    ((LevelString level = "Fault") ↔ 600 ≤ level ∧ level < 700) ∧
    ((LevelString level = "Panic") ↔ 700 ≤ level) ∧
    LevelString 0 = "Unknown" ∧ LevelString 199 = "Disabled" ∧ LevelString 200 = "OK" ∧
    LevelString 699 = "Fault" ∧ LevelString 700 = "Panic" ∧ LevelString 50000 = "Panic" := by
  refine ⟨?_, ?_, ?_, ?_, ?_, ?_, ?_, ?_, by rfl, by rfl, by rfl, by rfl, by rfl, by rfl⟩ <;>
    (unfold LevelString
     split_ifs <;>
       first
         | exact iff_of_true rfl (by omega)
         | exact iff_of_false (by decide) (by omega))

/-- Claim C10: a lookup with an empty source path always answers not-found,
whether or not the node has a child slice. -/
theorem FindBySource_empty_path (s : State) : s.FindBySource [] = none := by
  obtain ⟨lv, src, msg, t, ov⟩ := s
  cases t <;> rfl

/-- Claim C4: applying an override whose root source equals the state's root
source and whose single child carries the wildcard source replaces level and
message of both children and marks both as overridden, while the root is left
untouched. -/
theorem Apply_wildcard_example :
    (State.mk 0 "" "" (.mkt (.cons (.mk 200 "a" "" .nil false)
        (.cons (.mk 200 "b" "" .nil false) .nil))) false).Apply
      (State.mk 0 "" "" (.mkt (.cons (.mk 500 "*" "x" .nil false) .nil)) false)
    = State.mk 0 "" "" (.mkt (.cons (.mk 500 "a" "x" .nil true)
        (.cons (.mk 500 "b" "x" .nil true) .nil))) false := rfl

/-- Claim C7 (behaviour at the failing input): a node whose override flag is
set flattens to an entry whose override flag is `false` — `rflat` builds its
`FlatState` literal without the `Override` field, so the flag of the node is
dropped and the entry gets the zero value. -/
theorem Flatten_override_flag_dropped :
    (State.mk 300 "a" "m" Forest.nil true).override = true ∧
    (State.mk 300 "a" "m" Forest.nil true).Flatten
      = [{ depth := 0, level := 300, source := "a", message := "m", override := false }] :=
  ⟨rfl, rfl⟩

/-- Claim C1: `Apply` replaces level and message and sets the override flag
exactly when the override's source differs from the node's source; when the
two sources are equal the three fields are left untouched; in particular a
wildcard override replaces the fields of every node whose source is not
`"*"`. -/
theorem Apply_field_replacement (s o : State) :
    (o.source ≠ s.source →
      (s.Apply o).level = o.level ∧ (s.Apply o).message = o.message ∧
      (s.Apply o).override = true) ∧
    (o.source = s.source →
      (s.Apply o).level = s.level ∧ (s.Apply o).message = s.message ∧
      (s.Apply o).override = s.override) ∧
    (o.source = "*" → s.source ≠ "*" →
      (s.Apply o).level = o.level ∧ (s.Apply o).message = o.message ∧
      (s.Apply o).override = true) := by
  obtain ⟨lv, src, msg, t, ov⟩ := s
  obtain ⟨olv, osrc, omsg, otree, oov⟩ := o
  rw [Apply_mk]
  simp only [State.level, State.source, State.message, State.override]
  refine ⟨fun hne => ?_, fun heq => ?_, fun hw hnw => ?_⟩
  · simp [hne]
  · simp [heq]
  · have hne : osrc ≠ src := by rw [hw]; exact fun e => hnw e.symm
    simp [hne]

/-- Matching loop of `FindBySource` agrees with `List.find?` over the child
list. -/
theorem findSource_eq_find (src : String) :
    ∀ cs : StateList, cs.findSource src = cs.toList.find? (fun c => c.source == src)
  | .nil => rfl
  | .cons c rest => by
    by_cases h : c.source = src
    · simp [StateList.findSource, StateList.toList, h]
    · simp [StateList.findSource, StateList.toList, h, findSource_eq_find src rest]

/-- Claim C8: on every non-empty source path, `FindBySource` computes the
specification-side descent: one level per path element, first sibling of
exactly equal source wins, with not-found (and no fault) when the current
node has a nil child slice or some level has no matching child. -/
theorem FindBySource_nonempty_path (s : State) (x : String) (rest : List String) :
    s.FindBySource (x :: rest) = specDescend s (x :: rest) := by
  induction rest generalizing s x with
  | nil =>
    obtain ⟨lv, src, msg, t, ov⟩ := s
    cases t with
    | nil => rfl
    | mkt cs =>
      rw [State.FindBySource.eq_def, specDescend.eq_def]
      simp only [State.tree, Forest.childrenList, findSource_eq_find]
      cases cs.toList.find? (fun c => c.source == x) <;> rfl
  | cons y rest2 ih =>
    obtain ⟨lv, src, msg, t, ov⟩ := s
    cases t with
    | nil => rfl
    | mkt cs =>
      rw [State.FindBySource.eq_def, specDescend.eq_def]
      simp only [State.tree, Forest.childrenList, findSource_eq_find]
      cases cs.toList.find? (fun c => c.source == x) with
      | none => rfl
      | some c => simpa using ih c y

/-- Mapping a skeleton-preserving function over a child list preserves the
list's skeleton. -/
theorem skeleton_mapS (f : State → State) (hf : ∀ c : State, (f c).skeleton = c.skeleton) :
    ∀ cs : StateList, (cs.mapS f).skeleton = cs.skeleton
  | .nil => rfl
  | .cons c rest => by
    simp only [StateList.mapS, StateList.skeleton, hf c, skeleton_mapS f hf rest]

mutual

/-- Applying an override never changes the skeleton (sources and child
structure) of the state tree. -/
theorem skeleton_Apply (s o : State) : (s.Apply o).skeleton = s.skeleton := by
  obtain ⟨olv, osrc, omsg, otree, oov⟩ := o
  obtain ⟨lv, src, msg, t, ov⟩ := s
  rw [Apply_mk]
  cases t with
  | nil => cases otree <;> rfl
  | mkt cs =>
    cases otree with
    | nil => rfl
    | mkt ocs =>
      simp only [State.skeleton, Forest.skeleton, skeleton_applyOverrides cs ocs]

/-- Sequentially applying override children never changes the skeleton of the
child list. -/
theorem skeleton_applyOverrides (cs ocs : StateList) :
    (applyOverrides cs ocs).skeleton = cs.skeleton := by
  cases ocs with
  | nil => rfl
  | cons oc rest =>
    rw [show applyOverrides cs (.cons oc rest)
        = applyOverrides
            (cs.mapS fun c =>
              if oc.source = "*" ∨ c.source = oc.source then c.Apply oc else c)
            rest from rfl]
    rw [skeleton_applyOverrides _ rest]
    exact skeleton_mapS _
      (fun c => by
        by_cases h : oc.source = "*" ∨ c.source = oc.source
        · simpa [h] using skeleton_Apply c oc
        · simp [h])
      cs

end

/-- Mapping a function that fixes every member of a child list is the
identity. -/
theorem mapS_congr_id (f : State → State) :
    ∀ cs : StateList, (∀ c, c ∈ cs.toList → f c = c) → cs.mapS f = cs
  | .nil, _ => rfl
  | .cons c rest, h => by
    simp only [StateList.mapS]
    rw [h c (by simp [StateList.toList]),
      mapS_congr_id f rest fun c2 hc => h c2 (by simp [StateList.toList, hc])]

/-- Claim C2: `Apply` preserves the tree shape — same nodes, same sources,
same child structure, so nothing is created or removed and only level,
message and the override flag can change; children are touched only when both
child slices are non-nil, in which case the descent is exactly
`applyOverrides`; and an override child that is not the wildcard and matches
no child's source is silently ignored. -/
theorem Apply_preserves_shape (s o : State) :
    (s.Apply o).skeleton = s.skeleton ∧
    ((s.tree = Forest.nil ∨ o.tree = Forest.nil) → (s.Apply o).tree = s.tree) ∧
    (∀ cs ocs, s.tree = Forest.mkt cs → o.tree = Forest.mkt ocs →
      (s.Apply o).tree = Forest.mkt (applyOverrides cs ocs)) ∧
    (∀ oc rest cs2, oc.source ≠ "*" → (∀ c, c ∈ StateList.toList cs2 → c.source ≠ oc.source) →
      applyOverrides cs2 (.cons oc rest) = applyOverrides cs2 rest) := by
  obtain ⟨lv, src, msg, t, ov⟩ := s
  obtain ⟨olv, osrc, omsg, otree, oov⟩ := o
  refine ⟨skeleton_Apply _ _, ?_, ?_, ?_⟩
  · intro h
    rcases h with h | h
    · simp only [State.tree] at h; subst h; rw [Apply_mk]; cases otree <;> rfl
    · simp only [State.tree] at h; subst h; rw [Apply_mk]; cases t <;> rfl
  · intro cs ocs h1 h2
    simp only [State.tree] at h1 h2; subst h1; subst h2
    rw [Apply_mk]
    rfl
  · intro oc rest cs2 hw hnm
    have hid : (cs2.mapS fun c =>
        if oc.source = "*" ∨ c.source = oc.source then c.Apply oc else c) = cs2 :=
      mapS_congr_id _ cs2 fun c hc => by
        rw [if_neg]
        rintro (h | h)
        · exact hw h
        · exact hnm c hc h
    rw [show applyOverrides cs2 (.cons oc rest)
        = applyOverrides
            (cs2.mapS fun c =>
              if oc.source = "*" ∨ c.source = oc.source then c.Apply oc else c)
            rest from rfl, hid]

/-- Go's running-maximum update is the binary maximum. -/
theorem ite_gt_eq_max (a b : Int) : (if b > a then b else a) = max a b := by
  rcases le_or_lt b a with h | h
  · rw [if_neg (not_lt.mpr h), max_eq_left h]
  · rw [if_pos h, max_eq_right h.le]

/-- Loop of `AggregateLevels`: it aggregates every child in order and folds
the binary maximum of the aggregated levels over the accumulator. -/
theorem aggStep_eq : ∀ (cs : StateList) (m : Int),
    aggStep m cs = (cs.mapS State.AggregateLevels,
      ((cs.mapS State.AggregateLevels).toList.map State.level).foldl max m)
  | .nil, _ => rfl
  | .cons c rest, m => by
    have h := aggStep_eq rest
      (if (c.AggregateLevels).level > m then (c.AggregateLevels).level else m)
    rw [ite_gt_eq_max] at h
    simp only [aggStep, StateList.mapS, StateList.toList, List.map, List.foldl, h,
      ite_gt_eq_max]

/-- Claim C3, amended: after `AggregateLevels`, a node with a nil child slice
is unchanged, and a node with a non-nil child slice carries its recursively
aggregated children and the level `max 0 (maximum of the aggregated child
levels)` — a left fold of the maximum starting at 0, so an empty child list
yields 0 regardless of any previously set level, and negative child levels
are clamped to 0 rather than returned. -/
theorem AggregateLevels_rule (s : State) :
    (s.tree = Forest.nil → s.AggregateLevels = s) ∧
    (∀ cs, s.tree = Forest.mkt cs →
      (s.AggregateLevels).tree = Forest.mkt (cs.mapS State.AggregateLevels) ∧
      (s.AggregateLevels).level
        = ((cs.mapS State.AggregateLevels).toList.map State.level).foldl max 0) := by
  obtain ⟨lv, src, msg, t, ov⟩ := s
  constructor
  · intro h; simp only [State.tree] at h; subst h; rfl
  · intro cs h; simp only [State.tree] at h; subst h
    constructor
    · simp only [State.AggregateLevels, aggStep_eq, State.tree]
    · simp only [State.AggregateLevels, aggStep_eq, State.level]

/-- Claim C3, counterexample to the literal claim: on `aggCexRoot` (one child
of level `-5`), aggregation yields level 0 at the root, while the maximum of
the direct children's aggregated levels is `-5`, so the aggregated level is
not that maximum. -/
theorem AggregateLevels_claim_cex :
    ((aggCexRoot.AggregateLevels).tree.childrenList.map State.level).max? = some (-5) ∧
    (aggCexRoot.AggregateLevels).level = 0 ∧
    some ((aggCexRoot.AggregateLevels).level)
      ≠ ((aggCexRoot.AggregateLevels).tree.childrenList.map State.level).max? := by
  refine ⟨?_, rfl, ?_⟩ <;> decide

mutual

/-- Entries of `rflat` are exactly the projections of the specification-side
pre-order traversal. -/
theorem rflat_eq_spec (s : State) (d : Nat) :
    rflat s d = (specPreorder d s).map fun p => flatEntry p.1 p.2 := by
  obtain ⟨lv, src, msg, t, ov⟩ := s
  simp only [rflat, specPreorder, List.map_cons, flatEntry, State.level, State.source,
    State.message, rflatForest_eq_spec t (d + 1)]

/-- Forest part of `rflat_eq_spec`. -/
theorem rflatForest_eq_spec (t : Forest) (d : Nat) :
    rflatForest t d = (specPreorderForest d t).map fun p => flatEntry p.1 p.2 := by
  cases t with
  | nil => rfl
  | mkt cs => exact rflatList_eq_spec cs d

/-- Child-list part of `rflat_eq_spec`. -/
theorem rflatList_eq_spec (cs : StateList) (d : Nat) :
    rflatList cs d = (specPreorderList d cs).map fun p => flatEntry p.1 p.2 := by
  cases cs with
  | nil => rfl
  | cons c rest =>
    simp only [rflatList, specPreorderList, List.map_append, rflat_eq_spec c d,
      rflatList_eq_spec rest d]

end

mutual

/-- Flattening produces one entry per node. -/
theorem rflat_length (s : State) (d : Nat) : (rflat s d).length = s.size := by
  obtain ⟨lv, src, msg, t, ov⟩ := s
  simp only [rflat, List.length_cons, State.size, rflatForest_length t (d + 1)]
  omega

/-- Forest part of `rflat_length`. -/
theorem rflatForest_length (t : Forest) (d : Nat) : (rflatForest t d).length = t.size := by
  cases t with
  | nil => rfl
  | mkt cs => exact rflatList_length cs d

/-- Child-list part of `rflat_length`. -/
theorem rflatList_length (cs : StateList) (d : Nat) : (rflatList cs d).length = cs.size := by
  cases cs with
  | nil => rfl
  | cons c rest =>
    simp only [rflatList, List.length_append, rflat_length c d, rflatList_length rest d,
      StateList.size]

end

/-- Claim C6: `Flatten` produces exactly one entry per node (its length is
the node count), and its entries are, in order, the projections of the
depth-first pre-order traversal of the tree with the depth counted from 0 at
the root — so every node's entry strictly precedes its descendants' entries
and siblings stay in insertion order. -/
theorem Flatten_preorder (s : State) :
    s.Flatten.length = s.size ∧
    s.Flatten = (specPreorder 0 s).map fun p => flatEntry p.1 p.2 :=
  ⟨rflat_length s 0, rflat_eq_spec s 0⟩

/-- Source-side indentation equals the specification-side indentation. -/
theorem indentStr_eq_specIndent (d : Nat) : indentStr d = specIndent d := by
  induction d with
  | zero => rfl
  | succ n ih =>
    have h1 : indentStr (n + 1) = indentStr n ++ "  " := rfl
    have h2 : ("  " : String) = String.mk [' ', ' '] := rfl
    rw [h1, ih, specIndent, specIndent, h2,
      show String.mk (List.replicate (2 * n) ' ') ++ String.mk [' ', ' ']
        = String.mk (List.replicate (2 * n) ' ' ++ [' ', ' ']) from rfl]
    congr 1
    rw [show 2 * (n + 1) = 2 * n + 2 from by ring, List.replicate_add]
    rfl

/-- Per-entry text written by `State.String` equals the specification-side
line. -/
theorem line_eq_specLine (e : FlatState) : e.line = specLine e := by
  simp only [FlatState.line, specLine, indentStr_eq_specIndent, ite_not,
    String.append_assoc]

/-- Folding the string builder over entries is the concatenation of the
per-entry texts. -/
theorem foldl_line_eq (l : List FlatState) : ∀ init : String,
    l.foldl (fun sb item => sb ++ item.line) init
      = init ++ specConcat (l.map FlatState.line) := by
  induction l with
  | nil => intro init; simp [specConcat, String.append_empty]
  | cons e l ih =>
    intro init
    simp only [List.foldl_cons, List.map_cons, specConcat, ih, String.append_assoc]

/-- Claim C9: the rendered text is the concatenation, in flatten order, of
one line per flat entry: the depth-fold indentation (two spaces per depth
unit), then `- [source]: ` only for a non-empty source, then the decimal
level, one space and the band name, then `: message` only for a non-empty
message, then a newline. -/
theorem render_eq_spec (s : State) :
    s.render = specConcat (s.Flatten.map specLine) := by
  rw [State.render, foldl_line_eq, String.empty_append,
    show FlatState.line = specLine from funext line_eq_specLine]

end Jsonstate
